import Mathlib

/-!
Verification of the dialog subsystem of libRPG (`librpg/dialog.py`):
line wrapping (`build_lines`), box pagination (`split_boxes`), the four
dialog variants and the `MessageQueue` FIFO sequencer.

The embedding is shallow: the font measurement service is a pure function
`String → Nat × Nat` (width, height); the word list stands for
`text.split()`; the Python IndexError on an empty word or line list is the
`none` case of an `Option` result; widget construction (labels, panels,
cursors) is out of scope and only the layout and state-machine data is kept.
-/

namespace LibRPG

/-- One wrapped line: its rendered pixel height and its text
(the `[height, cur_line]` pairs of the source). -/
structure Line where
  height : Nat
  text : String
  deriving DecidableEq

/-- Font measurement capability: `font s = (width, height)` of string `s`
rendered in that font, mirroring `font.size` of the source. -/
abbrev Font := String → Nat × Nat

/-- Loop of `build_lines`: `cur` is the running `cur_line`, `height` the
running `height` variable, and the list argument the words not yet consumed.
On overflow the appended pair uses the height measured for `projected_line`,
because the source reassigns `height` before the comparison. -/
def buildLinesFrom (font : Font) (box_width : Nat) (cur : String) (height : Nat) :
    List String → List Line
  | [] => [⟨height, cur⟩]
  | word :: rest =>
    let projected_line := cur ++ " " ++ word
    let m := font projected_line
    if m.1 > box_width then
      ⟨m.2, cur⟩ :: buildLinesFrom font box_width word m.2 rest
    else
      buildLinesFrom font box_width projected_line m.2 rest

/-- Python `build_lines(text, box_width, font)` where `words` stands for
`text.split()`. The access `words[0]` fails on an empty word list, which is
the `none` case. -/
def build_lines (words : List String) (box_width : Nat) (font : Font) :
    Option (List Line) :=
  match words with
  | [] => none
  | w :: rest => some (buildLinesFrom font box_width w (font w).2 rest)

/-- A box (page) is a run of consecutive wrapped lines. -/
abbrev Box := List Line

/-- Loop of `split_boxes`: `box` is the box being filled, `box_cur_height`
its accumulated height. The empty-box guard mirrors the trailing
`if box: boxes.append(box)` of the source. -/
def splitBoxesFrom (box_height line_spacing : Nat) (box : Box) (box_cur_height : Nat) :
    List Line → List Box
  | [] => if box.isEmpty then [] else [box]
  | line :: rest =>
    if box_cur_height + line.height + line_spacing > box_height then
      box :: splitBoxesFrom box_height line_spacing [line] line.height rest
    else
      splitBoxesFrom box_height line_spacing (box ++ [line])
        (box_cur_height + line.height + line_spacing) rest

/-- Python `split_boxes(lines, box_height, line_spacing)`. The access
`lines[0]` fails on an empty line list, which is the `none` case. -/
def split_boxes (lines : List Line) (box_height line_spacing : Nat) :
    Option (List Box) :=
  match lines with
  | [] => none
  | l :: rest => some (splitBoxesFrom box_height line_spacing [l] l.height rest)

/-- Total rendered height of a box: the sum of its line heights plus
`line_spacing` between each pair of consecutive lines. -/
def boxHeight (line_spacing : Nat) (box : Box) : Nat :=
  (box.map Line.height).sum + (box.length - 1) * line_spacing

/-- Append further words to an accumulated line, one space before each word,
the way the wrapping loop grows `cur_line`. -/
def extendLine (cur : String) (ws : List String) : String :=
  ws.foldl (fun acc w => acc ++ " " ++ w) cur

/-- Text of the line that a chunk of words forms (space-joined). -/
def joinWords : List String → String
  | [] => ""
  | w :: ws => extendLine w ws

/-- Every width measurement the wrapping loop performs while growing this
chunk into one line fits the box: each prefix of at least two words measures
at most `box_width`. -/
def chunkFits (font : Font) (box_width : Nat) (c : List String) : Prop :=
  ∀ j, 2 ≤ j → j ≤ c.length → (font (joinWords (c.take j))).1 ≤ box_width

/-- Measurement used for the concrete scenarios below: width and height are
both the character count of the measured string. -/
def lenFont : Font := fun s => (s.length, s.length)

/-- Event type code of pygame KEYDOWN. -/
def KEYDOWN : Nat := 2

/-- An input event: its pygame type code and key code. -/
structure Event where
  type : Nat
  key : Nat

theorem extendLine_append (cur : String) (l1 l2 : List String) :
    extendLine cur (l1 ++ l2) = extendLine (extendLine cur l1) l2 := by
  simp [extendLine, List.foldl_append]

theorem joinWords_cons (w : String) (ws : List String) :
    joinWords (w :: ws) = extendLine w ws := rfl

theorem joinWords_append_single (c : List String) (hc : c ≠ []) (w : String) :
    joinWords (c ++ [w]) = joinWords c ++ " " ++ w := by
  cases c with
  | nil => exact absurd rfl hc
  | cons x xs =>
    show joinWords (x :: (xs ++ [w])) = _
    rw [joinWords_cons, joinWords_cons, extendLine_append]
    rfl

theorem chunkFits_single (font : Font) (bw : Nat) (w : String) :
    chunkFits font bw [w] := by
  intro j h2 hj
  simp only [List.length_cons, List.length_nil] at hj
  omega

theorem chunkFits_append (font : Font) (bw : Nat) (c : List String) (w : String)
    (_hc : c ≠ []) (hf : chunkFits font bw c)
    (hw : (font (joinWords (c ++ [w]))).1 ≤ bw) :
    chunkFits font bw (c ++ [w]) := by
  intro j h2 hj
  simp only [List.length_append, List.length_cons, List.length_nil] at hj
  rcases Nat.lt_or_ge j (c.length + 1) with hlt | hge
  · rw [List.take_append_of_le_length (by omega)]
    exact hf j h2 (by omega)
  · have hj2 : j = c.length + 1 := by omega
    rw [hj2, List.take_of_length_le (by simp)]
    exact hw

theorem buildLinesFrom_ne_nil (font : Font) (bw : Nat) (rest : List String) :
    ∀ (cur : String) (h : Nat), buildLinesFrom font bw cur h rest ≠ [] := by
  induction rest with
  | nil => intro cur h; simp [buildLinesFrom]
  | cons word rest ih =>
    intro cur h
    simp only [buildLinesFrom]
    split
    · simp
    · exact ih _ _

theorem buildLinesFrom_chunks (font : Font) (bw : Nat) (rest : List String) :
    ∀ (c : List String) (h : Nat), c ≠ [] → chunkFits font bw c →
    ∃ cs : List (List String),
      cs ≠ [] ∧ (∀ x ∈ cs, x ≠ [] ∧ chunkFits font bw x) ∧
      cs.flatten = c ++ rest ∧
      (buildLinesFrom font bw (joinWords c) h rest).map Line.text =
        cs.map joinWords := by
  induction rest with
  | nil =>
    intro c h hc hf
    exact ⟨[c], by simp, by simp [hc, hf], by simp, by simp [buildLinesFrom]⟩
  | cons word rest ih =>
    intro c h hc hf
    by_cases hov : (font (joinWords c ++ " " ++ word)).1 > bw
    · obtain ⟨cs, hcs_ne, hcs_fit, hcs_flat, hcs_map⟩ :=
        ih [word] (font (joinWords c ++ " " ++ word)).2 (by simp)
          (chunkFits_single font bw word)
      refine ⟨c :: cs, by simp, ?_, ?_, ?_⟩
      · intro x hx
        rcases List.mem_cons.1 hx with hx | hx
        · exact hx ▸ ⟨hc, hf⟩
        · exact hcs_fit x hx
      · rw [List.flatten_cons, hcs_flat]
        simp
      · simp only [buildLinesFrom, if_pos hov, List.map_cons]
        rw [show joinWords [word] = word from rfl] at hcs_map
        rw [hcs_map]
    · have hle : (font (joinWords (c ++ [word]))).1 ≤ bw := by
        rw [joinWords_append_single c hc word]; omega
      obtain ⟨cs, hcs_ne, hcs_fit, hcs_flat, hcs_map⟩ :=
        ih (c ++ [word]) (font (joinWords (c ++ [word]))).2 (by simp)
          (chunkFits_append font bw c word hc hf hle)
      refine ⟨cs, hcs_ne, hcs_fit, ?_, ?_⟩
      · rw [hcs_flat]
        simp
      · simp only [buildLinesFrom, if_neg hov]
        rw [← joinWords_append_single c hc word]
        exact hcs_map

theorem chunk_width_le (font : Font) (bw : Nat) (x : List String)
    (hf : chunkFits font bw x)
    (hw : ∀ w ∈ x, (font w).1 ≤ bw) :
    x ≠ [] → (font (joinWords x)).1 ≤ bw := by
  match x with
  | [] => intro hx; exact absurd rfl hx
  | [w] => intro hx; simpa [joinWords] using hw w (by simp)
  | w1 :: w2 :: ws =>
    intro hx
    have hj := hf (w1 :: w2 :: ws).length (by simp only [List.length_cons]; omega)
      (le_refl _)
    rwa [List.take_length] at hj

/-- Claim C1: for every non-empty word sequence whose widest single word
measures at most max_width, build_lines succeeds, every produced line
measures at most max_width, and the lines partition the original word
sequence in order into non-empty chunks, each line being the space-join of
its chunk. -/
theorem build_lines_width_and_words (font : Font) (bw : Nat)
    (words : List String) (hne : words ≠ [])
    (hw : ∀ w ∈ words, (font w).1 ≤ bw) :
    ∃ lines, build_lines words bw font = some lines ∧
      (∀ l ∈ lines, (font l.text).1 ≤ bw) ∧
      ∃ cs : List (List String), (∀ x ∈ cs, x ≠ []) ∧
        cs.flatten = words ∧ lines.map Line.text = cs.map joinWords := by
  match words with
  | [] => exact absurd rfl hne
  | w :: rest =>
    obtain ⟨cs, hcs_ne, hcs_fit, hcs_flat, hcs_map⟩ :=
      buildLinesFrom_chunks font bw rest [w] (font w).2 (by simp)
        (chunkFits_single font bw w)
    rw [show joinWords [w] = w from rfl] at hcs_map
    have hflat2 : cs.flatten = w :: rest := by simpa using hcs_flat
    refine ⟨buildLinesFrom font bw w (font w).2 rest, rfl, ?_,
      cs, fun x hx => (hcs_fit x hx).1, hflat2, hcs_map⟩
    intro l hl
    have hmem : l.text ∈ cs.map joinWords := by
      rw [← hcs_map]
      exact List.mem_map.2 ⟨l, hl, rfl⟩
    obtain ⟨x, hxcs, hxeq⟩ := List.mem_map.1 hmem
    rw [← hxeq]
    refine chunk_width_le font bw x (hcs_fit x hxcs).2 ?_ (hcs_fit x hxcs).1
    intro w2 hw2
    exact hw w2 (by rw [← hflat2]; exact List.mem_flatten.2 ⟨x, hxcs, hw2⟩)

/-- Witness for C1 at a concrete input. -/
theorem build_lines_width_and_words_witness :
    ∃ lines, build_lines ["ab", "cd", "ef"] 5 lenFont = some lines ∧
      (∀ l ∈ lines, (lenFont l.text).1 ≤ 5) ∧
      ∃ cs : List (List String), (∀ x ∈ cs, x ≠ []) ∧
        cs.flatten = ["ab", "cd", "ef"] ∧
        lines.map Line.text = cs.map joinWords :=
  build_lines_width_and_words lenFont 5 ["ab", "cd", "ef"] (by decide) (by decide)

/-- Claim C9: build_lines fails on an empty word list (the IndexError on
the first word, modelled as none), and on a non-empty word list it is total
and returns at least one line. -/
theorem build_lines_empty_fails_nonempty_total (font : Font) (bw : Nat)
    (words : List String) (hne : words ≠ []) :
    build_lines [] bw font = none ∧
    ∃ lines, build_lines words bw font = some lines ∧ lines ≠ [] := by
  refine ⟨rfl, ?_⟩
  match words with
  | [] => exact absurd rfl hne
  | w :: rest =>
    exact ⟨_, rfl, buildLinesFrom_ne_nil font bw rest w (font w).2⟩

/-- Witness for C9 at a concrete input. -/
theorem build_lines_empty_fails_nonempty_total_witness :
    build_lines [] 3 lenFont = none ∧
    ∃ lines, build_lines ["hi"] 3 lenFont = some lines ∧ lines ≠ [] :=
  build_lines_empty_fails_nonempty_total lenFont 3 ["hi"] (by decide)

/-- Counterexample to claim C2 as stated: with the character-count font at
width 2, the words "a" and "bb" wrap so that the first finalized line "a"
records height 4 — the measured height of the projected line "a bb" — and
not the height 1 of its own text. -/
theorem line_height_projected_cex :
    build_lines ["a", "bb"] 2 lenFont =
      some [Line.mk 4 "a", Line.mk 4 "bb"] ∧
    (lenFont "a").2 = 1 ∧
    ∃ l ∈ (build_lines ["a", "bb"] 2 lenFont).getD [],
      l.height ≠ (lenFont l.text).2 :=
  ⟨by decide, by decide, ⟨Line.mk 4 "a", by decide, by decide⟩⟩

/-- Claim C2 amended: when a line is finalized because the next word
overflows, its recorded height is the measured height of the projected line
that includes the overflowing word, and the new current line starts with
that same running height; consequently in a two-word overflow both lines
record the projected height, while a single-word text records the height of
its own word. -/
theorem build_lines_overflow_height (font : Font) (bw : Nat)
    (cur : String) (h : Nat) (w : String) (rest : List String)
    (hov : (font (cur ++ " " ++ w)).1 > bw) :
    buildLinesFrom font bw cur h (w :: rest) =
      Line.mk (font (cur ++ " " ++ w)).2 cur ::
        buildLinesFrom font bw w (font (cur ++ " " ++ w)).2 rest ∧
    (∀ w1 w2 : String, (font (w1 ++ " " ++ w2)).1 > bw →
      build_lines [w1, w2] bw font =
        some [Line.mk (font (w1 ++ " " ++ w2)).2 w1,
              Line.mk (font (w1 ++ " " ++ w2)).2 w2]) ∧
    (∀ w1 : String, build_lines [w1] bw font =
        some [Line.mk (font w1).2 w1]) := by
  refine ⟨by simp only [buildLinesFrom, if_pos hov], ?_, fun w1 => rfl⟩
  intro w1 w2 hov2
  simp [build_lines, buildLinesFrom, hov2]

/-- Witness for the amended C2 at a concrete input. -/
theorem build_lines_overflow_height_witness :
    buildLinesFrom lenFont 2 "a" 1 ["bb"] =
      Line.mk (lenFont ("a" ++ " " ++ "bb")).2 "a" ::
        buildLinesFrom lenFont 2 "bb" (lenFont ("a" ++ " " ++ "bb")).2 [] ∧
    (∀ w1 w2 : String, (lenFont (w1 ++ " " ++ w2)).1 > 2 →
      build_lines [w1, w2] 2 lenFont =
        some [Line.mk (lenFont (w1 ++ " " ++ w2)).2 w1,
              Line.mk (lenFont (w1 ++ " " ++ w2)).2 w2]) ∧
    (∀ w1 : String, build_lines [w1] 2 lenFont =
        some [Line.mk (lenFont w1).2 w1]) :=
  build_lines_overflow_height lenFont 2 "a" 1 "bb" [] (by decide)

theorem buildLinesFrom_fits (font : Font) (bw : Nat) (rest : List String) :
    ∀ (cur : String) (h : Nat),
    (∀ j, j < rest.length → (font (extendLine cur (rest.take (j + 1)))).1 ≤ bw) →
    ∃ h2, buildLinesFrom font bw cur h rest =
      [Line.mk h2 (extendLine cur rest)] := by
  induction rest with
  | nil => intro cur h _; exact ⟨h, rfl⟩
  | cons word rest ih =>
    intro cur h hfit
    have h0 : (font (cur ++ " " ++ word)).1 ≤ bw := hfit 0 (by simp)
    have hfit2 : ∀ j, j < rest.length →
        (font (extendLine (cur ++ " " ++ word) (rest.take (j + 1)))).1 ≤ bw := by
      intro j hj
      exact hfit (j + 1) (by simp only [List.length_cons]; omega)
    obtain ⟨h2, heq⟩ := ih (cur ++ " " ++ word) (font (cur ++ " " ++ word)).2 hfit2
    simp only [buildLinesFrom,
      if_neg (show ¬(font (cur ++ " " ++ word)).1 > bw by omega)]
    exact ⟨h2, heq⟩

theorem chunk_rewrap (font : Font) (bw : Nat) (x : List String)
    (hx : x ≠ []) (hf : chunkFits font bw x) :
    ∃ h2, build_lines x bw font = some [Line.mk h2 (joinWords x)] := by
  match x with
  | [] => exact absurd rfl hx
  | w :: ws =>
    have hfit : ∀ j, j < ws.length →
        (font (extendLine w (ws.take (j + 1)))).1 ≤ bw := by
      intro j hj
      exact hf (j + 2) (by omega) (by simp only [List.length_cons]; omega)
    obtain ⟨h2, heq⟩ := buildLinesFrom_fits font bw ws w (font w).2 hfit
    exact ⟨h2, by simp only [build_lines]; rw [heq, joinWords_cons]⟩

/-- Counterexample to claim C8 as stated: at width 4 with the character
count font, the words of "aa b cc" wrap to the lines (7, "aa b") and
(7, "cc"); re-wrapping the first line text "aa b" yields the single line
(4, "aa b"), which has the same text and boundaries but is not equal to the
produced line because the recorded height differs. -/
theorem rewrap_not_same_line_cex :
    build_lines ["aa", "b", "cc"] 4 lenFont =
      some [Line.mk 7 "aa b", Line.mk 7 "cc"] ∧
    build_lines ["aa", "b"] 4 lenFont = some [Line.mk 4 "aa b"] ∧
    Line.mk 4 "aa b" ≠ Line.mk 7 "aa b" :=
  ⟨by decide, by decide, by decide⟩

/-- Claim C8 amended: re-wrapping the word chunk of any line produced by
build_lines, at the same max_width and with the same font, yields exactly
one line whose text is that same line text (the same boundaries); only the
recorded height can differ. -/
theorem build_lines_rewrap_boundaries (font : Font) (bw : Nat)
    (words : List String) (lines : List Line)
    (hl : build_lines words bw font = some lines) :
    ∃ cs : List (List String), (∀ x ∈ cs, x ≠ []) ∧ cs.flatten = words ∧
      lines.map Line.text = cs.map joinWords ∧
      ∀ x ∈ cs, ∃ h2, build_lines x bw font =
        some [Line.mk h2 (joinWords x)] := by
  match words with
  | [] => exact absurd hl (by simp [build_lines])
  | w :: rest =>
    obtain ⟨cs, hcs_ne, hcs_fit, hcs_flat, hcs_map⟩ :=
      buildLinesFrom_chunks font bw rest [w] (font w).2 (by simp)
        (chunkFits_single font bw w)
    have hlines : buildLinesFrom font bw w (font w).2 rest = lines :=
      Option.some.inj hl
    refine ⟨cs, fun x hx => (hcs_fit x hx).1, by simpa using hcs_flat, ?_, ?_⟩
    · rw [← hlines]
      rw [show joinWords [w] = w from rfl] at hcs_map
      exact hcs_map
    · intro x hx
      exact chunk_rewrap font bw x (hcs_fit x hx).1 (hcs_fit x hx).2

/-- Witness for the amended C8 at a concrete input. -/
theorem build_lines_rewrap_boundaries_witness :
    ∃ cs : List (List String), (∀ x ∈ cs, x ≠ []) ∧
      cs.flatten = ["aa", "b", "cc"] ∧
      ([Line.mk 7 "aa b", Line.mk 7 "cc"] : List Line).map Line.text =
        cs.map joinWords ∧
      ∀ x ∈ cs, ∃ h2, build_lines x 4 lenFont =
        some [Line.mk h2 (joinWords x)] :=
  build_lines_rewrap_boundaries lenFont 4 ["aa", "b", "cc"]
    [Line.mk 7 "aa b", Line.mk 7 "cc"] (by decide)

theorem boxHeight_single (ls : Nat) (l : Line) : boxHeight ls [l] = l.height := by
  simp [boxHeight]

theorem boxHeight_append_single (ls : Nat) (box : Box) (l : Line) (hb : box ≠ []) :
    boxHeight ls (box ++ [l]) = boxHeight ls box + l.height + ls := by
  match box with
  | b :: bs =>
    simp only [boxHeight, List.map_append, List.sum_append, List.length_append,
      List.map_cons, List.sum_cons, List.map_nil, List.sum_nil, List.length_cons,
      List.length_nil, Nat.add_sub_cancel]
    ring

theorem splitBoxesFrom_spec (bh ls : Nat) (rest : List Line) :
    ∀ (box : Box) (acc : Nat), box ≠ [] → acc = boxHeight ls box → acc ≤ bh →
    (∀ l ∈ rest, l.height ≤ bh) →
    (∀ b ∈ splitBoxesFrom bh ls box acc rest, b ≠ []) ∧
    (splitBoxesFrom bh ls box acc rest).flatten = box ++ rest ∧
    (∀ b ∈ splitBoxesFrom bh ls box acc rest, boxHeight ls b ≤ bh) := by
  induction rest with
  | nil =>
    intro box acc hb hacc hle _
    simp only [splitBoxesFrom]
    rw [if_neg (by simpa using hb)]
    refine ⟨by simpa using hb, by simp, ?_⟩
    intro b hbmem
    rw [List.mem_singleton.1 hbmem, ← hacc]
    exact hle
  | cons line rest ih =>
    intro box acc hb hacc hle hrest
    simp only [splitBoxesFrom]
    by_cases hov : acc + line.height + ls > bh
    · rw [if_pos hov]
      obtain ⟨ih1, ih2, ih3⟩ := ih [line] line.height (by simp)
        (by simp [boxHeight]) (hrest line (by simp))
        (fun l hl => hrest l (by simp [hl]))
      refine ⟨?_, ?_, ?_⟩
      · intro b hbmem
        rcases List.mem_cons.1 hbmem with rfl | hbmem
        · exact hb
        · exact ih1 b hbmem
      · rw [List.flatten_cons, ih2]
        simp
      · intro b hbmem
        rcases List.mem_cons.1 hbmem with rfl | hbmem
        · rw [← hacc]
          exact hle
        · exact ih3 b hbmem
    · rw [if_neg hov]
      obtain ⟨ih1, ih2, ih3⟩ := ih (box ++ [line]) (acc + line.height + ls)
        (by simp) (by rw [boxHeight_append_single ls box line hb, ← hacc])
        (by omega) (fun l hl => hrest l (List.mem_cons_of_mem _ hl))
      refine ⟨ih1, ?_, ih3⟩
      rw [ih2]
      simp

/-- Claim C3: for a non-empty line sequence and a budget at least the
tallest single line height, split_boxes succeeds, every produced box is
non-empty, the boxes concatenate back to the input line sequence in order,
and every box total height (line heights plus interior spacing) is within
the budget — so no oversized single-line box arises either. -/
theorem split_boxes_fits_and_preserves (bh ls : Nat) (lines : List Line)
    (hne : lines ≠ []) (hh : ∀ l ∈ lines, l.height ≤ bh) :
    ∃ boxes, split_boxes lines bh ls = some boxes ∧
      (∀ b ∈ boxes, b ≠ []) ∧ boxes.flatten = lines ∧
      ∀ b ∈ boxes, boxHeight ls b ≤ bh := by
  match lines with
  | [] => exact absurd rfl hne
  | l :: rest =>
    obtain ⟨h1, h2, h3⟩ := splitBoxesFrom_spec bh ls rest [l] l.height (by simp)
      (by simp [boxHeight]) (hh l (by simp)) (fun x hx => hh x (by simp [hx]))
    exact ⟨_, rfl, h1, by simpa using h2, h3⟩

/-- Witness for C3 at a concrete input. -/
theorem split_boxes_fits_and_preserves_witness :
    ∃ boxes, split_boxes [Line.mk 2 "x", Line.mk 2 "y", Line.mk 3 "z"] 5 1 =
        some boxes ∧
      (∀ b ∈ boxes, b ≠ []) ∧
      boxes.flatten = [Line.mk 2 "x", Line.mk 2 "y", Line.mk 3 "z"] ∧
      ∀ b ∈ boxes, boxHeight 1 b ≤ 5 :=
  split_boxes_fits_and_preserves 5 1 [Line.mk 2 "x", Line.mk 2 "y", Line.mk 3 "z"]
    (by decide) (by decide)

theorem splitBoxesFrom_ne_nil (bh ls : Nat) (rest : List Line) :
    ∀ (box : Box) (acc : Nat), box ≠ [] →
      splitBoxesFrom bh ls box acc rest ≠ [] := by
  induction rest with
  | nil =>
    intro box acc hb
    simp only [splitBoxesFrom]
    rw [if_neg (by simpa using hb)]
    simp
  | cons line rest ih =>
    intro box acc hb
    simp only [splitBoxesFrom]
    split
    · simp
    · exact ih _ _ (by simp)

/-- Claim C10: split_boxes fails on an empty line sequence (the IndexError
on the first line, modelled as none), and on a non-empty line sequence it is
total and returns at least one box. -/
theorem split_boxes_empty_fails_nonempty_total (bh ls : Nat)
    (lines : List Line) (hne : lines ≠ []) :
    split_boxes [] bh ls = none ∧
    ∃ boxes, split_boxes lines bh ls = some boxes ∧ boxes ≠ [] := by
  refine ⟨rfl, ?_⟩
  match lines with
  | [] => exact absurd rfl hne
  | l :: rest =>
    exact ⟨_, rfl, splitBoxesFrom_ne_nil bh ls rest [l] l.height (by simp)⟩

/-- Witness for C10 at a concrete input. -/
theorem split_boxes_empty_fails_nonempty_total_witness :
    split_boxes [] 5 1 = none ∧
    ∃ boxes, split_boxes [Line.mk 2 "x"] 5 1 = some boxes ∧ boxes ≠ [] :=
  split_boxes_empty_fails_nonempty_total 5 1 [Line.mk 2 "x"] (by decide)

/-- Input-facing state of a MessageDialog: the static block_movement flag
and whether close() has been called. -/
structure MessageDialog where
  block_movement : Bool
  closed : Bool

/-- Python MessageDialog.process_event: a KEYDOWN whose key is in the
key_action set closes the dialog; the returned flag is always the static
block_movement. -/
def MessageDialog.process_event (key_action : List Nat)
    (s : MessageDialog) (e : Event) : MessageDialog × Bool :=
  let s1 := if e.type = KEYDOWN ∧ e.key ∈ key_action then
    { s with closed := true } else s
  (s1, s.block_movement)

/-- An ElasticMessageDialog after construction: the computed box height, the
wrapped lines, and the input-facing state. -/
structure ElasticMessageDialog where
  block_movement : Bool
  box_height : Nat
  lines : List Line
  closed : Bool
  deriving DecidableEq

/-- Computed box size of ElasticMessageDialog: sum of the wrapped line
heights, plus line_spacing between consecutive lines, plus border padding. -/
def elasticHeight (lines : List Line) (line_spacing border_width : Nat) : Nat :=
  (lines.map Line.height).sum + (lines.length - 1) * line_spacing
    + 4 * border_width

/-- Python ElasticMessageDialog.__init__: wraps the text at the screen width
minus borders, computes the box height and asserts that it is strictly below
the screen height; none models both the failed assert and the empty-text
IndexError. -/
def ElasticMessageDialog.init (words : List String) (block_movement : Bool)
    (font : Font) (line_spacing border_width screen_width screen_height : Nat) :
    Option ElasticMessageDialog :=
  match build_lines words (screen_width - 4 * border_width) font with
  | none => none
  | some lines =>
    let box_height := elasticHeight lines line_spacing border_width
    if box_height < screen_height then
      some { block_movement, box_height, lines, closed := false }
    else
      none

/-- Python ElasticMessageDialog.process_event, identical in behaviour to the
MessageDialog one. -/
def ElasticMessageDialog.process_event (key_action : List Nat)
    (s : ElasticMessageDialog) (e : Event) : ElasticMessageDialog × Bool :=
  let s1 := if e.type = KEYDOWN ∧ e.key ∈ key_action then
    { s with closed := true } else s
  (s1, s.block_movement)

/-- State of a MultiMessageDialog: the pending panels, the displayed panel,
the closed flag and the static block_movement flag. -/
structure MultiMessageDialog where
  block_movement : Bool
  panels : List Box
  current_panel : Option Box
  closed : Bool
  deriving DecidableEq

/-- Python MultiMessageDialog.advance_panel: remove the displayed panel if
any, then pop the next pending panel, if any, and display it. -/
def MultiMessageDialog.advance_panel (s : MultiMessageDialog) :
    MultiMessageDialog :=
  let s1 := { s with current_panel := none }
  match s1.panels with
  | [] => s1
  | p :: rest => { s1 with current_panel := some p, panels := rest }

/-- Tail of MultiMessageDialog.__init__ once the boxes are computed: store
the panels and display the first through advance_panel. -/
def MultiMessageDialog.ofBoxes (boxes : List Box) (block_movement : Bool) :
    MultiMessageDialog :=
  MultiMessageDialog.advance_panel
    { block_movement, panels := boxes, current_panel := none, closed := false }

/-- Python MultiMessageDialog.__init__: wrap the text, paginate the lines
into boxes, then show the first panel. -/
def MultiMessageDialog.init (words : List String) (block_movement : Bool)
    (font : Font) (box_width box_height line_spacing : Nat) :
    Option MultiMessageDialog :=
  match build_lines words box_width font with
  | none => none
  | some lines =>
    match split_boxes lines box_height line_spacing with
    | none => none
    | some boxes => some (MultiMessageDialog.ofBoxes boxes block_movement)

/-- Python MultiMessageDialog.process_event: a confirm KEYDOWN advances the
panel and closes the dialog when no panel remains; the returned flag is
always the static block_movement. -/
def MultiMessageDialog.process_event (key_action : List Nat)
    (s : MultiMessageDialog) (e : Event) : MultiMessageDialog × Bool :=
  let s1 :=
    if e.type = KEYDOWN ∧ e.key ∈ key_action then
      let s2 := MultiMessageDialog.advance_panel s
      if s2.current_panel.isNone then { s2 with closed := true } else s2
    else s
  (s1, s.block_movement)

/-- State change of one confirm-key event on a MultiMessageDialog. -/
def MultiMessageDialog.confirm (key_action : List Nat) (e : Event)
    (s : MultiMessageDialog) : MultiMessageDialog :=
  (MultiMessageDialog.process_event key_action s e).1

/-- Input-facing state of a ChoiceDialog. -/
structure ChoiceDialog where
  block_movement : Bool
  closed : Bool

/-- Python ChoiceDialog.process_event: on KEYDOWN a confirm key closes the
dialog, and a left or right navigation key makes the handler return True
regardless of the static flag; every other event returns block_movement. -/
def ChoiceDialog.process_event (key_action key_left key_right : List Nat)
    (s : ChoiceDialog) (e : Event) : ChoiceDialog × Bool :=
  if e.type = KEYDOWN then
    let s1 := if e.key ∈ key_action then { s with closed := true } else s
    if e.key ∈ key_left ∨ e.key ∈ key_right then (s1, true)
    else (s1, s.block_movement)
  else (s, s.block_movement)

/-- MessageQueue state over an abstract dialog type: current and controller
as in the source, the pending queue, and stacked as the ghost trace of the
dialogs whose controllers were pushed onto the context stack, in order. -/
structure MessageQueue (α : Type) where
  current : Option α
  controller : Option α
  queue : List α
  stacked : List α

/-- Python MessageQueue.__init__. -/
def MessageQueue.initial (α : Type) : MessageQueue α :=
  { current := none, controller := none, queue := [], stacked := [] }

/-- Python MessageQueue.is_active. -/
def MessageQueue.is_active {α : Type} (s : MessageQueue α) : Bool :=
  s.current.isSome

/-- Python MessageQueue.pop_next: when no dialog is active and the queue is
non-empty, dequeue the head, make it current, build its controller and stack
that controller on the context stack (recorded in the ghost trace). -/
def MessageQueue.pop_next {α : Type} (s : MessageQueue α) : MessageQueue α :=
  match s.current, s.queue with
  | none, m :: rest =>
    { current := some m, controller := some m, queue := rest,
      stacked := s.stacked ++ [m] }
  | _, _ => s

/-- Python MessageQueue.push: append to the pending queue only. -/
def MessageQueue.push {α : Type} (s : MessageQueue α) (message : α) :
    MessageQueue α :=
  { s with queue := s.queue ++ [message] }

/-- Python MessageQueue.update for one tick; is_done is the sampled value of
controller.is_done(). Returns the new state and the fixed False result. -/
def MessageQueue.update {α : Type} (s : MessageQueue α) (is_done : Bool) :
    MessageQueue α × Bool :=
  let s1 := if s.controller.isSome && is_done then { s with current := none }
    else s
  (MessageQueue.pop_next s1, false)

/-- A host-driven operation on the queue: a push, or one update tick
together with the completion flag the controller samples to. -/
inductive QOp (α : Type) where
  | push (message : α)
  | update (is_done : Bool)

/-- Apply one host operation. -/
def MessageQueue.step {α : Type} (s : MessageQueue α) : QOp α → MessageQueue α
  | QOp.push m => MessageQueue.push s m
  | QOp.update d => (MessageQueue.update s d).1

/-- Run a sequence of host operations from a freshly constructed queue. -/
def MessageQueue.run {α : Type} (ops : List (QOp α)) : MessageQueue α :=
  ops.foldl MessageQueue.step (MessageQueue.initial α)

/-- The dialogs pushed by a sequence of operations, in push order. -/
def pushedList {α : Type} : List (QOp α) → List α
  | [] => []
  | QOp.push m :: rest => m :: pushedList rest
  | QOp.update _ :: rest => pushedList rest

/-- Claim C4: an ElasticMessageDialog whose computed box height (wrapped
line heights plus interior spacing plus border padding) equals or exceeds
the screen height fails its assert and produces no dialog instance;
construction succeeds exactly when the computed height is strictly below
the screen height, and then stores that height. -/
theorem elastic_height_guard (words : List String) (bm : Bool) (font : Font)
    (ls bwid sw sh : Nat) (lines : List Line)
    (hl : build_lines words (sw - 4 * bwid) font = some lines) :
    (sh ≤ elasticHeight lines ls bwid →
      ElasticMessageDialog.init words bm font ls bwid sw sh = none) ∧
    (elasticHeight lines ls bwid < sh →
      ∃ d, ElasticMessageDialog.init words bm font ls bwid sw sh = some d ∧
        d.box_height = elasticHeight lines ls bwid) := by
  have heq : ElasticMessageDialog.init words bm font ls bwid sw sh =
      (if elasticHeight lines ls bwid < sh then
        some { block_movement := bm,
               box_height := elasticHeight lines ls bwid,
               lines, closed := false }
      else none) := by
    unfold ElasticMessageDialog.init
    rw [hl]
  constructor
  · intro hge
    rw [heq, if_neg (by omega)]
  · intro hlt
    rw [heq, if_pos hlt]
    exact ⟨_, rfl, rfl⟩

/-- Witness for C4 at a concrete input. -/
theorem elastic_height_guard_witness :
    (7 ≤ elasticHeight [Line.mk 2 "aa"] 1 1 →
      ElasticMessageDialog.init ["aa"] true lenFont 1 1 10 7 = none) ∧
    (elasticHeight [Line.mk 2 "aa"] 1 1 < 7 →
      ∃ d, ElasticMessageDialog.init ["aa"] true lenFont 1 1 10 7 = some d ∧
        d.box_height = elasticHeight [Line.mk 2 "aa"] 1 1) :=
  elastic_height_guard ["aa"] true lenFont 1 1 10 7 [Line.mk 2 "aa"] (by decide)

/-- Claim C7: for every input event each dialog variant returns its static
block_movement flag from process_event, whether or not the event advanced
or closed the dialog; the only exception is ChoiceDialog, where a KEYDOWN
on a left or right navigation key returns True regardless of the flag. -/
theorem process_event_returns_block_movement
    (key_action key_left key_right : List Nat) (e : Event)
    (md : MessageDialog) (ed : ElasticMessageDialog)
    (mm : MultiMessageDialog) (cd : ChoiceDialog) :
    (MessageDialog.process_event key_action md e).2 = md.block_movement ∧
    (ElasticMessageDialog.process_event key_action ed e).2 =
      ed.block_movement ∧
    (MultiMessageDialog.process_event key_action mm e).2 =
      mm.block_movement ∧
    (ChoiceDialog.process_event key_action key_left key_right cd e).2 =
      if e.type = KEYDOWN ∧ (e.key ∈ key_left ∨ e.key ∈ key_right) then true
      else cd.block_movement := by
  refine ⟨rfl, rfl, rfl, ?_⟩
  by_cases ht : e.type = KEYDOWN
  · by_cases hk : e.key ∈ key_left ∨ e.key ∈ key_right
    · simp [ChoiceDialog.process_event, ht, hk]
    · simp [ChoiceDialog.process_event, ht, hk]
  · simp [ChoiceDialog.process_event, ht]

theorem multi_confirm_state (ka : List Nat) (e : Event)
    (ht : e.type = KEYDOWN) (hk : e.key ∈ ka) (bm : Bool) (boxes : List Box) :
    ∀ k, k < boxes.length →
      (MultiMessageDialog.confirm ka e)^[k]
          (MultiMessageDialog.ofBoxes boxes bm) =
        { block_movement := bm, panels := boxes.drop (k + 1),
          current_panel := boxes[k]?, closed := false } := by
  intro k
  induction k with
  | zero =>
    intro hk0
    match boxes, hk0 with
    | b :: bs, _ =>
      simp [MultiMessageDialog.ofBoxes, MultiMessageDialog.advance_panel]
  | succ k ih =>
    intro hks
    have hklt : k < boxes.length := by omega
    rw [Function.iterate_succ_apply', ih hklt]
    have hdrop : boxes.drop (k + 1) = boxes[k + 1] :: boxes.drop (k + 2) :=
      List.drop_eq_getElem_cons hks
    rw [hdrop, List.getElem?_eq_getElem hks]
    simp [MultiMessageDialog.confirm, MultiMessageDialog.process_event,
      MultiMessageDialog.advance_panel, ht, hk]

theorem multi_confirm_closes (ka : List Nat) (e : Event)
    (ht : e.type = KEYDOWN) (hk : e.key ∈ ka) (bm : Bool) (boxes : List Box)
    (hb : boxes ≠ []) :
    (MultiMessageDialog.confirm ka e)^[boxes.length]
        (MultiMessageDialog.ofBoxes boxes bm) =
      { block_movement := bm, panels := [], current_panel := none,
        closed := true } := by
  have hlen : boxes.length = (boxes.length - 1) + 1 := by
    match boxes, hb with
    | b :: bs, _ => simp
  rw [hlen, Function.iterate_succ_apply',
    multi_confirm_state ka e ht hk bm boxes (boxes.length - 1) (by omega)]
  rw [show boxes.length - 1 + 1 = boxes.length from by omega, List.drop_length]
  simp [MultiMessageDialog.confirm, MultiMessageDialog.process_event,
    MultiMessageDialog.advance_panel, ht, hk]

/-- Claim C5: a MultiMessageDialog whose text paginates into N boxes shows
box 0 immediately after construction; each of the first N-1 confirm-key
events replaces the shown panel with the next box in order (none skipped or
repeated, the dialog still open), and the N-th confirm event leaves no
panel and closes the dialog. -/
theorem multi_message_confirm_pages (ka : List Nat) (e : Event)
    (words : List String) (font : Font) (bw bh ls : Nat) (bm : Bool)
    (lines : List Line) (boxes : List Box) (s0 : MultiMessageDialog)
    (ht : e.type = KEYDOWN) (hk : e.key ∈ ka)
    (hwrap : build_lines words bw font = some lines)
    (hsplit : split_boxes lines bh ls = some boxes)
    (hinit : MultiMessageDialog.init words bm font bw bh ls = some s0) :
    s0 = MultiMessageDialog.ofBoxes boxes bm ∧
    s0.current_panel = boxes[0]? ∧ s0.closed = false ∧
    (∀ k, k < boxes.length →
      ((MultiMessageDialog.confirm ka e)^[k] s0).current_panel = boxes[k]? ∧
      ((MultiMessageDialog.confirm ka e)^[k] s0).closed = false) ∧
    ((MultiMessageDialog.confirm ka e)^[boxes.length] s0).current_panel =
      none ∧
    ((MultiMessageDialog.confirm ka e)^[boxes.length] s0).closed = true := by
  have hb : boxes ≠ [] := by
    match lines, hsplit with
    | l :: rest, hsplit =>
      have hne := splitBoxesFrom_ne_nil bh ls rest [l] l.height (by simp)
      have heq : splitBoxesFrom bh ls [l] l.height rest = boxes :=
        Option.some.inj hsplit
      rw [← heq]
      exact hne
  have hs0 : s0 = MultiMessageDialog.ofBoxes boxes bm := by
    simp only [MultiMessageDialog.init, hwrap, hsplit] at hinit
    exact (Option.some.inj hinit).symm
  subst hs0
  have hlen0 : 0 < boxes.length := List.length_pos.2 hb
  have hzero := multi_confirm_state ka e ht hk bm boxes 0 hlen0
  rw [Function.iterate_zero_apply] at hzero
  refine ⟨rfl, by rw [hzero], by rw [hzero], ?_, ?_, ?_⟩
  · intro k hklt
    rw [multi_confirm_state ka e ht hk bm boxes k hklt]
    exact ⟨rfl, rfl⟩
  · rw [multi_confirm_closes ka e ht hk bm boxes hb]
  · rw [multi_confirm_closes ka e ht hk bm boxes hb]

/-- Witness for C5 at a concrete input. -/
theorem multi_message_confirm_pages_witness :
    MultiMessageDialog.ofBoxes [[Line.mk 3 "a"], [Line.mk 3 "b"]] true =
      MultiMessageDialog.ofBoxes [[Line.mk 3 "a"], [Line.mk 3 "b"]] true ∧
    (MultiMessageDialog.ofBoxes [[Line.mk 3 "a"], [Line.mk 3 "b"]]
        true).current_panel =
      [[Line.mk 3 "a"], [Line.mk 3 "b"]][0]? ∧
    (MultiMessageDialog.ofBoxes [[Line.mk 3 "a"], [Line.mk 3 "b"]]
        true).closed = false ∧
    (∀ k, k < ([[Line.mk 3 "a"], [Line.mk 3 "b"]] : List Box).length →
      ((MultiMessageDialog.confirm [5] (Event.mk 2 5))^[k]
          (MultiMessageDialog.ofBoxes [[Line.mk 3 "a"], [Line.mk 3 "b"]]
            true)).current_panel =
        [[Line.mk 3 "a"], [Line.mk 3 "b"]][k]? ∧
      ((MultiMessageDialog.confirm [5] (Event.mk 2 5))^[k]
          (MultiMessageDialog.ofBoxes [[Line.mk 3 "a"], [Line.mk 3 "b"]]
            true)).closed = false) ∧
    ((MultiMessageDialog.confirm [5] (Event.mk 2 5))^[
        ([[Line.mk 3 "a"], [Line.mk 3 "b"]] : List Box).length]
        (MultiMessageDialog.ofBoxes [[Line.mk 3 "a"], [Line.mk 3 "b"]]
          true)).current_panel = none ∧
    ((MultiMessageDialog.confirm [5] (Event.mk 2 5))^[
        ([[Line.mk 3 "a"], [Line.mk 3 "b"]] : List Box).length]
        (MultiMessageDialog.ofBoxes [[Line.mk 3 "a"], [Line.mk 3 "b"]]
          true)).closed = true :=
  multi_message_confirm_pages [5] (Event.mk 2 5) ["a", "b"] lenFont 1 3 1
    true [Line.mk 3 "a", Line.mk 3 "b"] [[Line.mk 3 "a"], [Line.mk 3 "b"]]
    (MultiMessageDialog.ofBoxes [[Line.mk 3 "a"], [Line.mk 3 "b"]] true)
    (by decide) (by decide) (by decide) (by decide) (by decide)

theorem pop_next_trace {α : Type} (s : MessageQueue α) :
    (MessageQueue.pop_next s).stacked ++ (MessageQueue.pop_next s).queue =
      s.stacked ++ s.queue := by
  rcases hcur : s.current with _ | c <;>
    rcases hq : s.queue with _ | ⟨m, rest⟩ <;>
      simp [MessageQueue.pop_next, hcur, hq]

theorem update_trace {α : Type} (s : MessageQueue α) (d : Bool) :
    (MessageQueue.update s d).1.stacked ++ (MessageQueue.update s d).1.queue =
      s.stacked ++ s.queue := by
  show (MessageQueue.pop_next _).stacked ++ (MessageQueue.pop_next _).queue = _
  rw [pop_next_trace]
  split <;> rfl

theorem foldl_step_trace {α : Type} (ops : List (QOp α)) :
    ∀ s : MessageQueue α,
      (ops.foldl MessageQueue.step s).stacked ++
        (ops.foldl MessageQueue.step s).queue =
      s.stacked ++ s.queue ++ pushedList ops := by
  induction ops with
  | nil => intro s; simp [pushedList]
  | cons op ops ih =>
    intro s
    rw [List.foldl_cons, ih (MessageQueue.step s op)]
    cases op with
    | push m => simp [MessageQueue.step, MessageQueue.push, pushedList]
    | update d =>
      show (MessageQueue.update s d).1.stacked ++
          (MessageQueue.update s d).1.queue ++ pushedList ops = _
      rw [update_trace]
      simp [pushedList]

/-- The active dialog, when there is one, is the last stacked one. -/
def currentIsLastStacked {α : Type} (s : MessageQueue α) : Prop :=
  ∀ d, s.current = some d → s.stacked.getLast? = some d

theorem pop_next_keeps_latest {α : Type} (s : MessageQueue α)
    (h : currentIsLastStacked s) :
    currentIsLastStacked (MessageQueue.pop_next s) := by
  intro d hd
  rcases hcur : s.current with _ | c
  · rcases hq : s.queue with _ | ⟨m, rest⟩
    · have hs : MessageQueue.pop_next s = s := by
        simp [MessageQueue.pop_next, hcur, hq]
      rw [hs] at hd ⊢
      exact h d hd
    · have hs : (MessageQueue.pop_next s).current = some m ∧
          (MessageQueue.pop_next s).stacked = s.stacked ++ [m] := by
        simp [MessageQueue.pop_next, hcur, hq]
      rw [hs.1] at hd
      rw [hs.2, List.getLast?_concat]
      exact hd
  · have hs : MessageQueue.pop_next s = s := by
      rcases hq : s.queue with _ | ⟨m, rest⟩ <;>
        simp [MessageQueue.pop_next, hcur, hq]
    rw [hs] at hd ⊢
    exact h d hd

theorem update_keeps_latest {α : Type} (s : MessageQueue α) (d : Bool)
    (h : currentIsLastStacked s) :
    currentIsLastStacked (MessageQueue.update s d).1 := by
  apply pop_next_keeps_latest
  split
  · intro x hx
    simp at hx
  · exact h

theorem foldl_step_keeps_latest {α : Type} (ops : List (QOp α)) :
    ∀ s : MessageQueue α, currentIsLastStacked s →
      currentIsLastStacked (ops.foldl MessageQueue.step s) := by
  induction ops with
  | nil => intro s h; exact h
  | cons op ops ih =>
    intro s h
    refine ih _ ?_
    cases op with
    | push m => intro d hd; exact h d hd
    | update d2 => exact update_keeps_latest s d2 h

theorem update_without_completion {α : Type} (s : MessageQueue α)
    (hcur : s.current ≠ none) :
    (MessageQueue.update s false).1 = s := by
  show MessageQueue.pop_next (if s.controller.isSome && false then _ else s)
    = s
  rw [Bool.and_false, if_neg (by simp)]
  rcases hcur2 : s.current with _ | c
  · exact absurd hcur2 hcur
  · rcases hq : s.queue with _ | ⟨m, rest⟩ <;>
      simp [MessageQueue.pop_next, hcur2, hq]

/-- Claim C6: along every sequence of pushes and update ticks on a fresh
MessageQueue, the ghost trace of stacked controllers followed by the still
pending queue is exactly the pushed dialogs in push order, so dialogs
become active strictly in push order and a dialog pushed while another is
active or pending waits for all earlier ones; the single active dialog,
when there is one, is the most recently stacked one; push alone never
activates a dialog or touches the context stack; and an update tick can
grow the stack trace only when no dialog is active or the active
controller reported done this tick. -/
theorem message_queue_fifo (α : Type) (ops : List (QOp α)) :
    ((MessageQueue.run ops).stacked ++ (MessageQueue.run ops).queue =
      pushedList ops) ∧
    (∀ d, (MessageQueue.run ops).current = some d →
      (MessageQueue.run ops).stacked.getLast? = some d) ∧
    (∀ m, ((MessageQueue.run ops).push m).current =
        (MessageQueue.run ops).current ∧
      ((MessageQueue.run ops).push m).stacked =
        (MessageQueue.run ops).stacked) ∧
    (∀ is_done : Bool,
      ((MessageQueue.run ops).update is_done).1.stacked ≠
        (MessageQueue.run ops).stacked →
      (MessageQueue.run ops).current = none ∨ is_done = true) := by
  refine ⟨?_, ?_, ?_, ?_⟩
  · have h := foldl_step_trace ops (MessageQueue.initial α)
    simpa [MessageQueue.run, MessageQueue.initial] using h
  · exact foldl_step_keeps_latest ops (MessageQueue.initial α)
      (fun d hd => by simp [MessageQueue.initial] at hd)
  · intro m
    exact ⟨rfl, rfl⟩
  · intro is_done hne
    by_contra hcon
    push_neg at hcon
    obtain ⟨hcur, hdone⟩ := hcon
    have hfalse : is_done = false := by
      cases is_done
      · rfl
      · exact absurd rfl hdone
    apply hne
    rw [hfalse, update_without_completion (MessageQueue.run ops) hcur]

end LibRPG
